import Mathlib

/-!
Verification of the PlantWhispers post-sync pipeline.

Shallow embedding of the correlation-based alignment and transient-detection
code (`src/main.py`, `src/sync.py`, `src/audio_processor.py`, `src/filtering.py`).
Samples are modelled as rationals, stereo buffers as lists of pairs
(frame-major, like `data[i, ch]` in numpy), and numpy exceptions as an
explicit error type.
-/

namespace PostSync

/-- Errors surfaced by the numpy/scipy layer or by attribute lookup.
`valueError` models numpy's `ValueError` (e.g. `np.max` on an empty array,
or the explicit stereo check); `attributeError` models Python's
`AttributeError` on a missing instance attribute.  `invalidInputError` and
`insufficientLengthError` are the error classes named by the spec; no code
in the repository defines or raises them — they appear here only so that the
spec's claims about them can be stated. -/
inductive Err where
  | valueError
  | attributeError
  | invalidInputError
  | insufficientLengthError
  deriving DecidableEq, Repr

instance {ε α : Type} [DecidableEq ε] [DecidableEq α] : DecidableEq (Except ε α) := by
  intro a b
  cases a <;> cases b
  case error.error x y =>
    exact decidable_of_iff (x = y) ⟨fun h => by rw [h], fun h => by cases h; rfl⟩
  case ok.ok x y =>
    exact decidable_of_iff (x = y) ⟨fun h => by rw [h], fun h => by cases h; rfl⟩
  all_goals exact .isFalse (fun h => by cases h)

/-- Absolute value on ℚ, written so that the kernel can evaluate it on
concrete rationals. -/
def qabs (x : ℚ) : ℚ := if x < 0 then -x else x

/-- Binary maximum on ℚ, written so that the kernel can evaluate it on
concrete rationals. -/
def qmax (a b : ℚ) : ℚ := if a ≤ b then b else a

theorem qabs_eq_abs (x : ℚ) : qabs x = |x| := by
  unfold qabs
  split
  · exact (abs_of_neg (by assumption)).symm
  · exact (abs_of_nonneg (by linarith [not_lt.mp (by assumption)])).symm

theorem qmax_eq_max (a b : ℚ) : qmax a b = max a b := (max_def a b).symm

/-- Embeds `np.max(np.abs(signal))` for a nonempty signal: all mapped values
are nonnegative, so folding `max` with seed 0 agrees with numpy's maximum.
(On an empty signal numpy raises; callers gate that case.) -/
def maxAbs (s : List ℚ) : ℚ := (s.map qabs).foldr qmax 0

theorem maxAbs_nil : maxAbs [] = 0 := rfl

theorem maxAbs_cons (x : ℚ) (t : List ℚ) : maxAbs (x :: t) = max |x| (maxAbs t) := by
  simp [maxAbs, qmax_eq_max, qabs_eq_abs]

/-- Embeds `normalize` (src/main.py:9-12, src/sync.py:29-40,
src/audio_processor.py:39-50, src/filtering.py:27-38):
`max_val = np.max(np.abs(signal)); signal / max_val if max_val != 0 else signal`.
`np.max` raises `ValueError` on an empty array. -/
def normalize (s : List ℚ) : Except Err (List ℚ) :=
  if s.isEmpty then .error .valueError
  else .ok (if maxAbs s = 0 then s else s.map (fun x => x / maxAbs s))

/-- List lookup at a (possibly negative) integer index, 0 outside the range;
used to express the zero-padded full cross-correlation. -/
def getQ (s : List ℚ) (i : ℤ) : ℚ :=
  if i < 0 then 0 else s.getD i.toNat 0

/-- One entry of `scipy.signal.correlate(a, b, mode=full)`:
`z[m] = Σ_j a[j] * b[j - m + len(b) - 1]` (out-of-range reads are 0). -/
def corrAt (a b : List ℚ) (m : ℕ) : ℚ :=
  ∑ j ∈ Finset.range a.length, a.getD j 0 * getQ b ((j : ℤ) - (m : ℤ) + (b.length : ℤ) - 1)

/-- Embeds `scipy.signal.correlate(a, b, mode=full)`: the full linear
cross-correlation, of length `len(a) + len(b) - 1`. -/
def correlateFull (a b : List ℚ) : List ℚ :=
  (List.range (a.length + b.length - 1)).map (corrAt a b)

/-- Helper for `np.argmax`: scans the tail, keeping the first index of the
running maximum (update only on a strictly larger value, as numpy does). -/
def argmaxAux : List ℚ → ℕ → ℕ → ℚ → ℕ
  | [], _, b, _ => b
  | q :: t, i, b, v => if v < q then argmaxAux t (i + 1) i q else argmaxAux t (i + 1) b v

/-- Embeds `np.argmax` on a nonempty list: the first index attaining the
maximum.  (numpy raises on an empty array; all call sites here are
nonempty.) -/
def argmaxList : List ℚ → ℕ
  | [] => 0
  | x :: t => argmaxAux t 1 0 x

/-- Embeds `find_offset` (src/main.py:19-21, src/sync.py:58-70,
src/filtering.py:51): `correlation.argmax() - (len(correlation) // 2)`. -/
def find_offset (c : List ℚ) : ℤ :=
  (argmaxList c : ℤ) - ((c.length / 2 : ℕ) : ℤ)

/-- The cross-correlation offset estimator applied to two 1-D signals:
`correlate(normalize(a), normalize(b), mode=full).argmax() - len//2`,
the pattern shared by src/main.py:14-21, src/sync.py:42-70 and
src/filtering.py:50-52.  The only possible failure is numpy's
`ValueError` from `np.max` on an empty signal. -/
def offsetEstimator (a b : List ℚ) : Except Err ℤ := do
  let na ← normalize a
  let nb ← normalize b
  return find_offset (correlateFull na nb)

/-- Embeds `AudioAnalyzer.analyze_offsets` (src/filtering.py:40-52): the
estimator applied to the two channels of a stereo buffer. -/
def analyze_offsets (data : List (ℚ × ℚ)) : Except Err ℤ :=
  offsetEstimator (data.map Prod.fst) (data.map Prod.snd)

/-- Embeds `modify_data` (src/main.py:23-30, src/sync.py:72-88).
For `offset > 0`: `np.column_stack((data[offset:, 0], data[:-offset, 1]))`;
for `offset < 0` the mirrored trim; otherwise the data unchanged.  The two
slices always have equal length `max(0, len - |offset|)`, so `column_stack`
is `zip`.  The source has no failure path. -/
def modify_data (data : List (ℚ × ℚ)) (offset : ℤ) : List (ℚ × ℚ) :=
  if 0 < offset then
    ((data.map Prod.fst).drop offset.natAbs).zip
      ((data.map Prod.snd).take (data.length - offset.natAbs))
  else if offset < 0 then
    ((data.map Prod.fst).take (data.length - offset.natAbs)).zip
      ((data.map Prod.snd).drop offset.natAbs)
  else data

/-- Configuration attributes of `AudioProcessor`
(src/audio_processor.py:21-30) relevant to detection. -/
structure APConfig where
  threshold : ℚ
  sample_rate : ℕ
  peak_detect_ms : ℕ
  deriving DecidableEq, Repr

/-- Embeds `AudioProcessor.cutting` (src/audio_processor.py:88-103):
`samples_to_add = int(0.01 * sample_rate)` (10 ms in samples, exact
arithmetic: `sample_rate / 100` rounded down),
`start_cut = max(0, hpi - samples_to_add)`,
`end_cut = min(len(data), hpi + samples_to_add)`, returning
`(data[start_cut:end_cut], end_cut)`. -/
def cutting (sample_rate : ℕ) (data : List (ℚ × ℚ)) (hpi : ℕ) :
    List (ℚ × ℚ) × ℕ :=
  let samples_to_add := sample_rate / 100
  let start_cut := hpi - samples_to_add
  let end_cut := min data.length (hpi + samples_to_add)
  ((data.drop start_cut).take (end_cut - start_cut), end_cut)

/-- The inner peak-refinement loop of `detect_clicks_and_cut`
(src/audio_processor.py:74-78): `while i <= search_end_index and i < len(data)`,
tracking the running maximum of `normalized_data[i]` and its first index.
The counter only bounds the iteration count (each iteration needs
`i < dlen`, so `dlen - i` steps always suffice); the real loop guard is the
`if` inside. -/
def peakGo (nd : List ℚ) (dlen se : ℕ) : ℕ → ℕ → ℚ → ℕ → ℚ × ℕ
  | 0, _, bv, bi => (bv, bi)
  | n + 1, i, bv, bi =>
    if i ≤ se ∧ i < dlen then
      if bv < nd.getD i 0 then peakGo nd dlen se n (i + 1) (nd.getD i 0) i
      else peakGo nd dlen se n (i + 1) bv bi
    else (bv, bi)

/-- The peak search entered at `start_index = i` with
`highest_peak = 0, highest_peak_index = i`
(src/audio_processor.py:68-78); returns `(highest_peak, highest_peak_index)`
(the loop's final `i` is discarded — the caller overwrites `i` with
`cutting`'s end index). -/
def peakLoop (nd : List ℚ) (dlen se i : ℕ) : ℚ × ℕ :=
  peakGo nd dlen se (dlen - i) i 0 i

/-- The outer scan of `detect_clicks_and_cut` (src/audio_processor.py:66-86)
as a fuel-indexed step function: `none` means the fuel ran out before the
loop exited (the Python loop is still running after that many iterations). -/
def detectLoop (cfg : APConfig) (data : List (ℚ × ℚ)) (nd : List ℚ) :
    ℕ → ℕ → Option (List (ℕ × List (ℚ × ℚ)))
  | 0, _ => none
  | fuel + 1, i =>
    if i < data.length then
      if cfg.threshold < nd.getD i 0 then
        let se := i + cfg.peak_detect_ms * cfg.sample_rate / 1000
        let hp := peakLoop nd data.length se i
        let ct := cutting cfg.sample_rate data hp.2
        match detectLoop cfg data nd fuel ct.2 with
        | none => none
        | some rest => some ((hp.2, ct.1) :: rest)
      else detectLoop cfg data nd fuel (i + 1)
    else some []

/-- Embeds `AudioProcessor.detect_clicks_and_cut`
(src/audio_processor.py:52-86): normalize channel 0 once, then scan.
`Except` carries the `ValueError` that `normalize` raises on an empty
buffer; the inner `Option` is the fuel bound of the scan loop. -/
def detect_clicks_and_cut (cfg : APConfig) (fuel : ℕ) (data : List (ℚ × ℚ)) :
    Except Err (Option (List (ℕ × List (ℚ × ℚ)))) :=
  match normalize (data.map Prod.fst) with
  | .error e => .error e
  | .ok nd => .ok (detectLoop cfg data nd fuel 0)

/-- Attribute state of an `AudioSyncFilter` instance (src/sync.py:8-27).
`sample_rate` is `none` as long as no method has assigned the attribute;
reading it then raises `AttributeError`. -/
structure SyncState where
  folder_path : String
  sync_duration_ms : ℕ
  sample_rate : Option ℕ

/-- Embeds `AudioSyncFilter.__init__` (src/sync.py:17-27): it assigns only
`folder_path` and `sync_duration_ms`; `self.sample_rate` is never assigned
by any method of the class. -/
def AudioSyncFilter.init (folder_path : String) (sync_duration_ms : ℕ) : SyncState :=
  ⟨folder_path, sync_duration_ms, none⟩

/-- Embeds `AudioSyncFilter.segment_cross_correlation` (src/sync.py:42-56):
`sync_length = int(self.sample_rate * self.sync_duration_ms / 1000)` reads
`self.sample_rate` first — `AttributeError` when unset — then correlates the
normalized channels of `data[:sync_length]`. -/
def segment_cross_correlation (st : SyncState) (data : List (ℚ × ℚ)) :
    Except Err (List ℚ) :=
  match st.sample_rate with
  | none => .error .attributeError
  | some sr => do
    let sync_length := sr * st.sync_duration_ms / 1000
    let segment := data.take sync_length
    let n0 ← normalize (segment.map Prod.fst)
    let n1 ← normalize (segment.map Prod.snd)
    return correlateFull n0 n1

/-- Embeds `AudioSyncFilter.process_wav_file` (src/sync.py:109-133) on an
already-decoded input: the stereo-shape check
(`ValueError` when `data.shape[1] != 2`), then segment cross-correlation,
offset, sync-tone trim, realignment, and the high-pass filter.  The
Butterworth `filtfilt` stage is floating-point DSP owned by scipy and is
passed in as the external collaborator `hpf`. -/
def process_wav_file (st : SyncState) (hpf : List (ℚ × ℚ) → List (ℚ × ℚ))
    (sample_rate : ℕ) (nchannels : ℕ) (data : List (ℚ × ℚ)) :
    Except Err (List (ℚ × ℚ) × ℕ) :=
  if nchannels ≠ 2 then .error .valueError
  else
    match segment_cross_correlation st data with
    | .error e => .error e
    | .ok correlations =>
      let offset := find_offset correlations
      let data2 := data.drop (sample_rate * st.sync_duration_ms / 1000)
      .ok (hpf (modify_data data2 offset), sample_rate)

/-- Modelled from the spec: the Distance Converter.  No distance-conversion
code exists under src/ (spec §4.6 and §8 describe it); per the spec's words,
`time_delay = lag / sample_rate` and
`distance_mm = round(speed_of_sound_m_per_s * time_delay * 1000)` with the
fixed constant 343 m/s. -/
def convert (lag : ℤ) (sample_rate : ℕ) : ℤ :=
  round ((343 : ℚ) * ((lag : ℚ) / (sample_rate : ℚ)) * 1000)

/-! Basic facts about `maxAbs` and `normalize`. -/

theorem maxAbs_nonneg (s : List ℚ) : 0 ≤ maxAbs s := by
  induction s with
  | nil => simp [maxAbs_nil]
  | cons x t ih => rw [maxAbs_cons]; exact le_max_of_le_right ih

theorem maxAbs_eq_zero_iff (s : List ℚ) : maxAbs s = 0 ↔ ∀ x ∈ s, x = 0 := by
  induction s with
  | nil => simp [maxAbs_nil]
  | cons x t ih =>
    rw [maxAbs_cons]
    constructor
    · intro h
      have hx : |x| ≤ 0 := h ▸ le_max_left _ _
      have ht : maxAbs t ≤ 0 := h ▸ le_max_right _ _
      have hx0 : x = 0 := abs_nonpos_iff.mp hx
      have ht0 : ∀ y ∈ t, y = 0 := ih.mp (le_antisymm ht (maxAbs_nonneg t))
      intro y hy
      rcases List.mem_cons.mp hy with rfl | hy
      · exact hx0
      · exact ht0 y hy
    · intro h
      have hx0 : x = 0 := h x (List.mem_cons_self x t)
      have ht0 : maxAbs t = 0 := ih.mpr (fun y hy => h y (List.mem_cons_of_mem _ hy))
      simp [hx0, ht0]

theorem maxAbs_pos (s : List ℚ) (h : maxAbs s ≠ 0) : 0 < maxAbs s :=
  lt_of_le_of_ne (maxAbs_nonneg s) (Ne.symm h)

theorem maxAbs_append (s t : List ℚ) : maxAbs (s ++ t) = max (maxAbs s) (maxAbs t) := by
  induction s with
  | nil => simp [maxAbs_nil, max_eq_right (maxAbs_nonneg t)]
  | cons x u ih => simp [maxAbs_cons, ih, max_assoc]

theorem maxAbs_replicate_zero (k : ℕ) : maxAbs (List.replicate k 0) = 0 :=
  (maxAbs_eq_zero_iff _).mpr (fun x hx => List.eq_of_mem_replicate hx)

theorem maxAbs_map_div (s : List ℚ) (c : ℚ) (hc : 0 < c) :
    maxAbs (s.map (fun x => x / c)) = maxAbs s / c := by
  induction s with
  | nil => simp [maxAbs_nil]
  | cons x t ih =>
    simp only [List.map_cons, maxAbs_cons, ih]
    rw [abs_div, abs_of_pos hc, max_div_div_right (le_of_lt hc)]

theorem normalize_of_ne_nil (s : List ℚ) (hs : s ≠ []) :
    normalize s = .ok (if maxAbs s = 0 then s else s.map (fun x => x / maxAbs s)) := by
  simp [normalize, hs]

theorem normalize_length (s t : List ℚ) (h : normalize s = .ok t) :
    t.length = s.length := by
  by_cases hs : s = []
  · subst hs; simp [normalize] at h
  · rw [normalize_of_ne_nil s hs] at h
    cases h
    split <;> simp

/-- Claim C9: a signal whose maximum absolute value is 0 is returned
unchanged by the Normalizer, with no division; a signal with nonzero
maximum absolute value M is mapped samplewise to `x / M`, keeping its
length, and the result has maximum absolute value 1.  (The signal must be
nonempty for `np.max` to be defined at all.) -/
theorem C9_normalize (s : List ℚ) (hs : s ≠ []) :
    (maxAbs s = 0 → normalize s = .ok s) ∧
    (maxAbs s ≠ 0 →
      normalize s = .ok (s.map (fun x => x / maxAbs s)) ∧
      (s.map (fun x => x / maxAbs s)).length = s.length ∧
      maxAbs (s.map (fun x => x / maxAbs s)) = 1) := by
  constructor
  · intro h0
    rw [normalize_of_ne_nil s hs, if_pos h0]
  · intro hne
    have hpos : 0 < maxAbs s := maxAbs_pos s hne
    refine ⟨by rw [normalize_of_ne_nil s hs, if_neg hne], by simp, ?_⟩
    rw [maxAbs_map_div s (maxAbs s) hpos, div_self hne]

/-- Witness for C9 at two concrete signals: the all-zero signal `[0]` is
returned unchanged, and `[2, -4]` is scaled by its peak 4 to `[1/2, -1]`. -/
theorem C9_normalize_witness :
    normalize [(0 : ℚ)] = .ok [0] ∧ normalize [(2 : ℚ), -4] = .ok [1/2, -1] := by
  constructor
  · exact (C9_normalize [0] (by simp)).1 (by simp [maxAbs_cons, maxAbs_nil])
  · have h := ((C9_normalize [2, -4] (by simp)).2 (by norm_num [maxAbs_cons, maxAbs_nil])).1
    rw [h]
    norm_num [maxAbs_cons, maxAbs_nil]

/-- Claim C8: the Distance Converter at the spec's two reference points:
a zero lag maps to 0 mm, and a lag of 343 samples at 343 kHz (a 1 ms time
delay) maps to 343 mm. -/
theorem C8_convert : convert 0 44100 = 0 ∧ convert 343 343000 = 343 := by
  constructor <;> norm_num [convert, round_eq]

/-- Counterexample to claim C7: with a 2-frame stereo buffer and lag 2
(`|lag| >= length`), the Realigner does not fail — the source has no raise
path and no `InsufficientLengthError` exists in the repository — it returns
the empty buffer. -/
theorem C7_cex : modify_data [(1, 2), (3, 4)] 2 = [] := by decide

/-- Claim C7 as amended: for `|lag| >= buffer length` the Realigner raises
nothing and returns the empty stereo buffer (both slices are empty). -/
theorem C7_amended (data : List (ℚ × ℚ)) (lag : ℤ) (h : data.length ≤ lag.natAbs) :
    modify_data data lag = [] := by
  unfold modify_data
  split
  · have h1 : (data.map Prod.fst).drop lag.natAbs = [] := by
      rw [List.drop_eq_nil_iff]
      simpa using h
    simp [h1]
  · split
    · have h1 : data.length - lag.natAbs = 0 := Nat.sub_eq_zero_of_le h
      simp [h1]
    · have hl : lag = 0 := by omega
      subst hl
      simp at h
      exact h

/-- Witness for C7 as amended: a 1-frame buffer realigned with lag -3
yields the empty buffer. -/
theorem C7_amended_witness : modify_data [((5 : ℚ), (6 : ℚ))] (-3) = [] :=
  C7_amended _ _ (by decide)

/-- Counterexample to claim C6: on two signals of different lengths the
estimator does not fail with `InvalidInputError` (no such error exists in
the code); it happily returns a lag. -/
theorem C6_cex : offsetEstimator [1] [1, 1] = .ok (-1) := by
  norm_num [offsetEstimator, normalize, maxAbs, qabs, qmax, correlateFull, corrAt, getQ,
    find_offset, argmaxList, argmaxAux, List.range_succ, Finset.sum_range_succ, Except.bind, bind,
    List.getD, Option.getD, Int.toNat, pure, Except.pure, List.getElem?_cons_succ,
    List.getElem?_cons_zero, List.getElem?_nil]

/-- Claim C6 as amended: the estimator never raises `InvalidInputError`.
If either signal is empty it fails with numpy's `ValueError` (from `np.max`
on an empty array); on any two nonempty signals — equal or differing
lengths — it succeeds and returns a lag. -/
theorem C6_amended (a b : List ℚ) :
    ((a = [] ∨ b = []) → offsetEstimator a b = .error .valueError) ∧
    (a ≠ [] → b ≠ [] → ∃ lag, offsetEstimator a b = .ok lag) := by
  constructor
  · rintro (rfl | rfl)
    · simp [offsetEstimator, normalize, Except.bind, bind]
    · by_cases ha : a = []
      · subst ha; simp [offsetEstimator, normalize, Except.bind, bind]
      · simp [offsetEstimator, normalize, ha, Except.bind, bind]
  · intro ha hb
    have hok : offsetEstimator a b = .ok (find_offset (correlateFull
        (if maxAbs a = 0 then a else a.map (fun x => x / maxAbs a))
        (if maxAbs b = 0 then b else b.map (fun x => x / maxAbs b)))) := by
      unfold offsetEstimator
      rw [normalize_of_ne_nil a ha, normalize_of_ne_nil b hb]
      rfl
    exact ⟨_, hok⟩

/-- Witness for C6 as amended: an empty first signal gives `ValueError`;
two nonempty signals of differing lengths give a successful lag. -/
theorem C6_amended_witness :
    offsetEstimator [] [(1 : ℚ)] = .error .valueError ∧
    ∃ lag, offsetEstimator [(1 : ℚ)] [(2 : ℚ), 3, 4] = .ok lag :=
  ⟨(C6_amended [] [1]).1 (Or.inl rfl), (C6_amended [1] [2, 3, 4]).2 (by simp) (by simp)⟩

/-- Counterexample to claim C5: a non-stereo (3-channel) input makes
`process_wav_file` fail with the stereo-check `ValueError`, not with
`AttributeError` — so "for every input file ... raises an AttributeError"
is too strong. -/
theorem C5_cex :
    process_wav_file (AudioSyncFilter.init "recordings" 100) id 44100 3 [((1 : ℚ), (1 : ℚ))] ≠
      .error .attributeError := by decide

/-- Claim C5 as amended: on every stereo input, `process_wav_file` of
`sync.py` fails with `AttributeError` — `segment_cross_correlation` reads
`self.sample_rate`, which `__init__` (and every other method) never
assigns — and on every non-stereo input it fails even earlier with the
stereo-check error; in no case is any output produced. -/
theorem C5_amended (fp : String) (sdms : ℕ) (hpf : List (ℚ × ℚ) → List (ℚ × ℚ))
    (sr nch : ℕ) (data : List (ℚ × ℚ)) :
    (nch = 2 →
      process_wav_file (AudioSyncFilter.init fp sdms) hpf sr nch data = .error .attributeError) ∧
    (nch ≠ 2 →
      process_wav_file (AudioSyncFilter.init fp sdms) hpf sr nch data = .error .valueError) := by
  constructor <;> intro h <;>
    simp [process_wav_file, segment_cross_correlation, AudioSyncFilter.init, h]

/-- Witness for C5 as amended, at a concrete stereo and a concrete
non-stereo input. -/
theorem C5_amended_witness :
    process_wav_file (AudioSyncFilter.init "recordings" 100) id 44100 2 [((1 : ℚ), (1 : ℚ))] =
      .error .attributeError ∧
    process_wav_file (AudioSyncFilter.init "recordings" 100) id 44100 3 [] =
      .error .valueError :=
  ⟨(C5_amended "recordings" 100 id 44100 2 [(1, 1)]).1 rfl,
   (C5_amended "recordings" 100 id 44100 3 []).2 (by decide)⟩

/-- Claim C2: for `|lag| < length`, the Realigner returns a stereo buffer
of length `length - |lag|`; for positive lag channel 0 loses its first
`lag` samples and channel 1 its last `lag` samples, for negative lag the
mirrored trim, and lag 0 returns the input unchanged. -/
theorem C2_realigner (data : List (ℚ × ℚ)) (lag : ℤ) (h : lag.natAbs < data.length) :
    (modify_data data lag).length = data.length - lag.natAbs ∧
    (0 < lag →
      (modify_data data lag).map Prod.fst = (data.map Prod.fst).drop lag.natAbs ∧
      (modify_data data lag).map Prod.snd = (data.map Prod.snd).take (data.length - lag.natAbs)) ∧
    (lag < 0 →
      (modify_data data lag).map Prod.fst = (data.map Prod.fst).take (data.length - lag.natAbs) ∧
      (modify_data data lag).map Prod.snd = (data.map Prod.snd).drop lag.natAbs) ∧
    (lag = 0 → modify_data data lag = data) := by
  rcases lt_trichotomy lag 0 with hneg | hzero | hpos
  · have hne : ¬ 0 < lag := by omega
    refine ⟨?_, fun hc => absurd hc hne, fun _ => ?_, fun hc => absurd hc (by omega)⟩
    · simp [modify_data, if_neg hne, if_pos hneg]
      try omega
    · constructor
      · rw [modify_data, if_neg hne, if_pos hneg]
        exact List.map_fst_zip _ _ (by simp; try omega)
      · rw [modify_data, if_neg hne, if_pos hneg]
        exact List.map_snd_zip _ _ (by simp; try omega)
  · subst hzero
    refine ⟨?_, fun hc => absurd hc (by omega), fun hc => absurd hc (by omega), fun _ => ?_⟩
    · simp [modify_data]
    · simp [modify_data]
  · refine ⟨?_, fun _ => ?_, fun hc => absurd hc (by omega), fun hc => absurd hc (by omega)⟩
    · simp [modify_data, if_pos hpos]
      try omega
    · constructor
      · rw [modify_data, if_pos hpos]
        exact List.map_fst_zip _ _ (by simp; try omega)
      · rw [modify_data, if_pos hpos]
        exact List.map_snd_zip _ _ (by simp; try omega)

/-- Witness for C2 at a 3-frame buffer and lag 1: the realigned buffer has
length 2. -/
theorem C2_realigner_witness :
    (modify_data [(1, 2), (3, 4), (5, 6)] 1).length = [((1 : ℚ), (2 : ℚ)), (3, 4), (5, 6)].length - (1 : ℤ).natAbs :=
  (C2_realigner [(1, 2), (3, 4), (5, 6)] 1 (by decide)).1

/-! Invariants of the transient-detection scan. -/

theorem peakGo_stay (nd : List ℚ) (dlen se : ℕ) :
    ∀ (fuel i : ℕ) (bv : ℚ) (bi : ℕ),
      (∀ j, i ≤ j → j ≤ se → j < dlen → nd.getD j 0 ≤ bv) →
      peakGo nd dlen se fuel i bv bi = (bv, bi) := by
  intro fuel
  induction fuel with
  | zero => intro i bv bi _; rfl
  | succ n ih =>
    intro i bv bi h
    unfold peakGo
    split
    · next hg =>
      rw [if_neg (not_lt.mpr (h i le_rfl hg.1 hg.2))]
      exact ih (i + 1) bv bi (fun j hj1 hj2 hj3 => h j (by omega) hj2 hj3)
    · rfl

theorem peakGo_snd_ge (nd : List ℚ) (dlen se : ℕ) :
    ∀ (fuel i : ℕ) (bv : ℚ) (bi : ℕ), min bi i ≤ (peakGo nd dlen se fuel i bv bi).2 := by
  intro fuel
  induction fuel with
  | zero => intro i bv bi; exact min_le_left _ _
  | succ n ih =>
    intro i bv bi
    unfold peakGo
    split
    · split
      · exact le_trans (by omega) (ih (i + 1) (nd.getD i 0) i)
      · exact le_trans (by omega) (ih (i + 1) bv bi)
    · exact min_le_left _ _

theorem peakGo_snd_lt (nd : List ℚ) (dlen se : ℕ) :
    ∀ (fuel i : ℕ) (bv : ℚ) (bi : ℕ), bi < dlen → (peakGo nd dlen se fuel i bv bi).2 < dlen := by
  intro fuel
  induction fuel with
  | zero => intro i bv bi h; exact h
  | succ n ih =>
    intro i bv bi h
    unfold peakGo
    split
    · next hg =>
      split
      · exact ih (i + 1) (nd.getD i 0) i hg.2
      · exact ih (i + 1) bv bi h
    · exact h

/-- When `nd` strictly peaks at `p` relative to the rest of the scan window,
the inner refinement loop started at `p` reports `p` as the peak index. -/
theorem peakLoop_bi (nd : List ℚ) (dlen se p : ℕ) (c : ℚ) (hp : p < dlen) (hse : p ≤ se)
    (hc : c < nd.getD p 0)
    (hsmall : ∀ j, p < j → j ≤ se → j < dlen → nd.getD j 0 ≤ c) :
    (peakLoop nd dlen se p).2 = p := by
  unfold peakLoop
  have hfuel : dlen - p = (dlen - p - 1) + 1 := by omega
  rw [hfuel]
  unfold peakGo
  rw [if_pos ⟨hse, hp⟩]
  by_cases h0 : (0 : ℚ) < nd.getD p 0
  · rw [if_pos h0,
      peakGo_stay nd dlen se (dlen - p - 1) (p + 1) (nd.getD p 0) p
        (fun j hj1 hj2 hj3 => le_trans (hsmall j (by omega) hj2 hj3) (le_of_lt hc))]
  · rw [if_neg h0,
      peakGo_stay nd dlen se (dlen - p - 1) (p + 1) 0 p
        (fun j hj1 hj2 hj3 =>
          le_trans (hsmall j (by omega) hj2 hj3) (le_of_lt (lt_of_lt_of_le hc (not_lt.mp h0))))]

/-- A scan over a region where no normalized sample exceeds the threshold
returns no events, given enough fuel. -/
theorem detectLoop_quiet (cfg : APConfig) (data : List (ℚ × ℚ)) (nd : List ℚ) :
    ∀ (fuel i : ℕ), data.length - i < fuel →
      (∀ j, i ≤ j → j < data.length → nd.getD j 0 ≤ cfg.threshold) →
      detectLoop cfg data nd fuel i = some [] := by
  intro fuel
  induction fuel with
  | zero => intro i h _; omega
  | succ n ih =>
    intro i h hq
    unfold detectLoop
    by_cases hi : i < data.length
    · rw [if_pos hi, if_neg (not_lt.mpr (hq i le_rfl hi))]
      exact ih (i + 1) (by omega) (fun j hj1 hj2 => hq j (by omega) hj2)
    · rw [if_neg hi]

/-- Stepping the scan across a quiet stretch of `m` samples. -/
theorem detectLoop_skip (cfg : APConfig) (data : List (ℚ × ℚ)) (nd : List ℚ) :
    ∀ (m fuel i : ℕ), i + m ≤ data.length →
      (∀ j, i ≤ j → j < i + m → nd.getD j 0 ≤ cfg.threshold) →
      detectLoop cfg data nd (fuel + m) i = detectLoop cfg data nd fuel (i + m) := by
  intro m
  induction m with
  | zero => intro fuel i _ _; rfl
  | succ n ih =>
    intro fuel i hlen hq
    have hi : i < data.length := by omega
    have step : detectLoop cfg data nd (fuel + (n + 1)) i
        = detectLoop cfg data nd (fuel + n) (i + 1) := by
      have heq : fuel + (n + 1) = (fuel + n) + 1 := by omega
      rw [heq]
      conv_lhs => unfold detectLoop
      rw [if_pos hi, if_neg (not_lt.mpr (hq i le_rfl (by omega)))]
    rw [step, ih fuel (i + 1) (by omega) (fun j hj1 hj2 => hq j (by omega) (by omega))]
    congr 1
    omega

/-- With margin at least one sample, every outer iteration strictly
advances the cursor, so `length + 1` fuel always finishes the scan. -/
theorem detectLoop_total (cfg : APConfig) (data : List (ℚ × ℚ)) (nd : List ℚ)
    (hsta : 1 ≤ cfg.sample_rate / 100) :
    ∀ (fuel i : ℕ), data.length - i < fuel → detectLoop cfg data nd fuel i ≠ none := by
  intro fuel
  induction fuel with
  | zero => intro i h; omega
  | succ n ih =>
    intro i h
    unfold detectLoop
    by_cases hi : i < data.length
    · rw [if_pos hi]
      by_cases htr : cfg.threshold < nd.getD i 0
      · rw [if_pos htr]
        have hbi : i ≤ (peakLoop nd data.length
            (i + cfg.peak_detect_ms * cfg.sample_rate / 1000) i).2 := by
          have := peakGo_snd_ge nd data.length
            (i + cfg.peak_detect_ms * cfg.sample_rate / 1000) (data.length - i) i 0 i
          simpa [peakLoop] using this
        have hnext : i + 1 ≤ min data.length
            ((peakLoop nd data.length (i + cfg.peak_detect_ms * cfg.sample_rate / 1000) i).2
              + cfg.sample_rate / 100) := by
          omega
        have hrec := ih (min data.length
            ((peakLoop nd data.length (i + cfg.peak_detect_ms * cfg.sample_rate / 1000) i).2
              + cfg.sample_rate / 100)) (by omega)
        simp only [cutting]
        cases hd : detectLoop cfg data nd n (min data.length
            ((peakLoop nd data.length (i + cfg.peak_detect_ms * cfg.sample_rate / 1000) i).2
              + cfg.sample_rate / 100)) with
        | none => exact absurd hd hrec
        | some rest => simp [hd]
      · rw [if_neg htr]
        exact ih (i + 1) (by omega)
    · rw [if_neg hi]
      simp

/-- With a zero margin (`int(0.01 * sample_rate) == 0`), a trigger whose
refined peak equals the trigger index never advances the cursor: the scan
runs forever (every fuel bound is exhausted). -/
theorem detectLoop_stuck (cfg : APConfig) (data : List (ℚ × ℚ)) (nd : List ℚ) (i : ℕ)
    (hsr : cfg.sample_rate < 100) (hi : i < data.length)
    (htr : cfg.threshold < nd.getD i 0)
    (hbi : (peakLoop nd data.length (i + cfg.peak_detect_ms * cfg.sample_rate / 1000) i).2 = i) :
    ∀ fuel, detectLoop cfg data nd fuel i = none := by
  intro fuel
  induction fuel with
  | zero => rfl
  | succ n ih =>
    unfold detectLoop
    rw [if_pos hi, if_pos htr]
    simp only [cutting, hbi, Nat.div_eq_of_lt hsr, Nat.add_zero,
      min_eq_right (le_of_lt hi), ih]

/-- Events reported by the scan have ascending peaks separated by at least
the margin, lie inside the buffer, and start at or after the cursor. -/
theorem detectLoop_events (cfg : APConfig) (data : List (ℚ × ℚ)) (nd : List ℚ)
    (hsta : 1 ≤ cfg.sample_rate / 100) :
    ∀ (fuel i : ℕ) (evs : List (ℕ × List (ℚ × ℚ))),
      detectLoop cfg data nd fuel i = some evs →
      (∀ e ∈ evs, i ≤ e.1 ∧ e.1 < data.length) ∧
      List.Pairwise (fun e f => e.1 + cfg.sample_rate / 100 ≤ f.1) evs := by
  intro fuel
  induction fuel with
  | zero => intro i evs h; exact absurd h (by simp [detectLoop])
  | succ n ih =>
    intro i evs h
    unfold detectLoop at h
    by_cases hi : i < data.length
    · rw [if_pos hi] at h
      by_cases htr : cfg.threshold < nd.getD i 0
      · rw [if_pos htr] at h
        simp only [cutting] at h
        set hpi := (peakLoop nd data.length
          (i + cfg.peak_detect_ms * cfg.sample_rate / 1000) i).2 with hhpi
        have hge : i ≤ hpi := by
          have := peakGo_snd_ge nd data.length
            (i + cfg.peak_detect_ms * cfg.sample_rate / 1000) (data.length - i) i 0 i
          simpa [hhpi, peakLoop] using this
        have hlt : hpi < data.length := by
          have := peakGo_snd_lt nd data.length
            (i + cfg.peak_detect_ms * cfg.sample_rate / 1000) (data.length - i) i 0 i hi
          simpa [hhpi, peakLoop] using this
        clear_value hpi
        cases hd : detectLoop cfg data nd n (min data.length (hpi + cfg.sample_rate / 100)) with
        | none => rw [hd] at h; exact absurd h (by simp)
        | some rest =>
          rw [hd] at h
          simp only [Option.some.injEq] at h
          obtain ⟨hmem, hpair⟩ := ih _ rest hd
          subst h
          constructor
          · intro e he
            rcases List.mem_cons.mp he with rfl | he
            · exact ⟨hge, hlt⟩
            · have := hmem e he
              constructor
              · omega
              · exact this.2
          · refine List.Pairwise.cons ?_ hpair
            intro e he
            have h1 := hmem e he
            omega
      · rw [if_neg htr] at h
        obtain ⟨hmem, hpair⟩ := ih (i + 1) evs h
        exact ⟨fun e he => ⟨by have := (hmem e he).1; omega, (hmem e he).2⟩, hpair⟩
    · rw [if_neg hi] at h
      simp only [Option.some.injEq] at h
      subst h
      simp

/-- Claim C3: on a buffer whose normalized reference channel never exceeds
the threshold, the detector returns no events; on a buffer with a single
isolated spike above threshold at index `p`, it returns exactly one event
whose peak index is `p` (the index of the strict maximum of the normalized
channel), with the two-channel segment
`data[max(0, p - margin) : min(len, p + margin)]` of width `2 * margin`
clipped at the buffer edges. -/
theorem C3_detector (cfg : APConfig) :
    (∀ (data : List (ℚ × ℚ)) (nd : List ℚ),
      normalize (data.map Prod.fst) = .ok nd →
      (∀ j, j < data.length → nd.getD j 0 ≤ cfg.threshold) →
      detect_clicks_and_cut cfg (data.length + 1) data = .ok (some [])) ∧
    (∀ (data : List (ℚ × ℚ)) (nd : List ℚ) (p : ℕ),
      normalize (data.map Prod.fst) = .ok nd →
      p < data.length →
      cfg.threshold < nd.getD p 0 →
      (∀ j, j < data.length → j ≠ p → nd.getD j 0 ≤ cfg.threshold) →
      100 ≤ cfg.sample_rate →
      detect_clicks_and_cut cfg (data.length + 1) data =
        .ok (some [(p, (data.drop (p - cfg.sample_rate / 100)).take
          (min data.length (p + cfg.sample_rate / 100) - (p - cfg.sample_rate / 100)))]) ∧
      (∀ j, j < data.length → j ≠ p → nd.getD j 0 < nd.getD p 0)) := by
  constructor
  · intro data nd hnd hq
    have hloop : detectLoop cfg data nd (data.length + 1) 0 = some [] :=
      detectLoop_quiet cfg data nd (data.length + 1) 0 (by omega) (fun j _ hj2 => hq j hj2)
    simp [detect_clicks_and_cut, hnd, hloop]
  · intro data nd p hnd hp htr hothers hsr
    have hsta : 1 ≤ cfg.sample_rate / 100 := by
      rw [Nat.le_div_iff_mul_le (by norm_num)]
      omega
    have hstrict : ∀ j, j < data.length → j ≠ p → nd.getD j 0 < nd.getD p 0 :=
      fun j hj1 hj2 => lt_of_le_of_lt (hothers j hj1 hj2) htr
    refine ⟨?_, hstrict⟩
    have hloop : detectLoop cfg data nd (data.length + 1) 0 =
        some [(p, (data.drop (p - cfg.sample_rate / 100)).take
          (min data.length (p + cfg.sample_rate / 100) - (p - cfg.sample_rate / 100)))] := by
      have hsplit : data.length + 1 = ((data.length - p) + 1) + p := by omega
      rw [hsplit, detectLoop_skip cfg data nd p ((data.length - p) + 1) 0 (by omega)
        (fun j hj1 hj2 => hothers j (by omega) (by omega))]
      simp only [Nat.zero_add]
      conv_lhs => unfold detectLoop
      rw [if_pos hp, if_pos htr]
      have hbi : (peakLoop nd data.length
          (p + cfg.peak_detect_ms * cfg.sample_rate / 1000) p).2 = p :=
        peakLoop_bi nd data.length (p + cfg.peak_detect_ms * cfg.sample_rate / 1000) p
          cfg.threshold hp (by omega) htr
          (fun j hj1 _ hj3 => hothers j hj3 (by omega))
      simp only [cutting, hbi]
      have hnext : p + 1 ≤ min data.length (p + cfg.sample_rate / 100) := by omega
      rw [detectLoop_quiet cfg data nd (data.length - p)
        (min data.length (p + cfg.sample_rate / 100)) (by omega)
        (fun j hj1 hj2 => hothers j hj2 (by omega))]
    simp [detect_clicks_and_cut, hnd, hloop]

/-- Witness for C3: a one-frame all-zero buffer yields no events, and a
one-frame buffer with a single spike yields exactly that one event with its
edge-clipped segment. -/
theorem C3_detector_witness :
    detect_clicks_and_cut ⟨2/10, 44100, 30⟩ 2 [((0 : ℚ), (0 : ℚ))] = .ok (some []) ∧
    detect_clicks_and_cut ⟨2/10, 44100, 30⟩ 2 [((1 : ℚ), (0 : ℚ))] =
      .ok (some [(0, [((1 : ℚ), (0 : ℚ))])]) := by
  constructor
  · exact (C3_detector ⟨2/10, 44100, 30⟩).1 [(0, 0)] [0]
      (by norm_num [normalize, maxAbs_cons, maxAbs_nil])
      (by
        intro j hj
        cases j <;>
          norm_num [List.getD, List.getElem?_cons_succ, List.getElem?_nil, Option.getD])
  · have h := ((C3_detector ⟨2/10, 44100, 30⟩).2 [(1, 0)] [1] 0
      (by norm_num [normalize, maxAbs, qabs, qmax])
      (by norm_num)
      (by norm_num [List.getD])
      (by intro j hj1 hj2; simp at hj1; omega)
      (by norm_num)).1
    exact h

set_option maxHeartbeats 1000000 in
/-- Counterexample to claim C4: with threshold 0.2, sample rate 100 Hz
(margin 1 sample, peak window 3 samples) and two transients at indices 0
and 1 — closer than `peak_window + margin = 4` — the detector merges them
into a single event (the refinement window of the first trigger swallows
the second, larger spike), not two. -/
theorem C4_cex :
    detect_clicks_and_cut ⟨2/10, 100, 30⟩ 5 [(5, 0), (10, 0), (0, 0)] =
      .ok (some [(1, [(5, 0), (10, 0)])]) := by
  have hnd : normalize [(5 : ℚ), 10, 0] = .ok [1/2, 1, 0] := by
    norm_num [normalize, maxAbs_cons, maxAbs_nil]
  simp only [detect_clicks_and_cut, List.map_cons, List.map_nil, hnd]
  norm_num [detectLoop, peakLoop, peakGo, cutting, List.getD]

/-- Claim C4 as amended: the detector's event list is always in strictly
ascending peak order, with consecutive peaks at least `margin_samples`
apart (so each event's peak lies at or beyond the end of the previous
event's emitted segment, and the scan never re-triggers on an index inside
a previous segment); but two transients closer together than
`peak_window_samples + margin_samples` may be merged into a single event or
may produce overlapping segments. -/
theorem C4_amended (cfg : APConfig) (data : List (ℚ × ℚ)) (fuel : ℕ)
    (evs : List (ℕ × List (ℚ × ℚ))) (hsr : 100 ≤ cfg.sample_rate)
    (h : detect_clicks_and_cut cfg fuel data = .ok (some evs)) :
    List.Pairwise (fun e f => e.1 + cfg.sample_rate / 100 ≤ f.1) evs ∧
    ∀ e ∈ evs, e.1 < data.length := by
  have hsta : 1 ≤ cfg.sample_rate / 100 := by
    rw [Nat.le_div_iff_mul_le (by norm_num)]
    omega
  unfold detect_clicks_and_cut at h
  cases hn : normalize (data.map Prod.fst) with
  | error e => rw [hn] at h; exact absurd h (by simp)
  | ok nd =>
    rw [hn] at h
    simp only [Except.ok.injEq] at h
    obtain ⟨hmem, hpair⟩ := detectLoop_events cfg data nd hsta fuel 0 evs h
    exact ⟨hpair, fun e he => (hmem e he).2⟩

set_option maxHeartbeats 1000000 in
/-- Witness for C4 as amended: two spikes 2 samples apart at 100 Hz
(closer than window 3 + margin 1) yield two events with peaks 0 and 2,
separated by at least the 1-sample margin and inside the 4-frame buffer. -/
theorem C4_amended_witness :
    List.Pairwise (fun e f => e.1 + 100 / 100 ≤ f.1)
      [((0 : ℕ), [((10 : ℚ), (0 : ℚ))]), ((2 : ℕ), [((0 : ℚ), (0 : ℚ)), (5, 0)])] ∧
    ∀ e ∈ [((0 : ℕ), [((10 : ℚ), (0 : ℚ))]), ((2 : ℕ), [((0 : ℚ), (0 : ℚ)), (5, 0)])],
      e.1 < ([(10, 0), (0, 0), (5, 0), (0, 0)] : List (ℚ × ℚ)).length :=
  C4_amended ⟨2/10, 100, 30⟩ [(10, 0), (0, 0), (5, 0), (0, 0)] 6 _ (by norm_num)
    (by
      have hnd : normalize [(10 : ℚ), 0, 5, 0] = .ok [1, 0, 1/2, 0] := by
        norm_num [normalize, maxAbs_cons, maxAbs_nil]
      simp only [detect_clicks_and_cut, List.map_cons, List.map_nil, hnd]
      norm_num [detectLoop, peakLoop, peakGo, cutting, List.getD])

/-- Claim C10: with `int(0.01 * sample_rate) >= 1` (sample rate at least
100) the scan terminates on every buffer within `length + 1` outer
iterations, because each iteration strictly advances the cursor; with
`int(0.01 * sample_rate) == 0` there is a buffer — one normalized sample
above threshold — on which the scan never terminates for any fuel bound,
because `cutting` returns an end index equal to the peak index. -/
theorem C10_termination :
    (∀ (cfg : APConfig) (data : List (ℚ × ℚ)), 100 ≤ cfg.sample_rate →
      detect_clicks_and_cut cfg (data.length + 1) data ≠ .ok none) ∧
    (∀ sr : ℕ, sr < 100 → ∀ fuel : ℕ,
      detect_clicks_and_cut ⟨2/10, sr, 30⟩ fuel [((1 : ℚ), (0 : ℚ))] = .ok none) := by
  constructor
  · intro cfg data hsr
    have hsta : 1 ≤ cfg.sample_rate / 100 := by
      rw [Nat.le_div_iff_mul_le (by norm_num)]
      omega
    unfold detect_clicks_and_cut
    cases hn : normalize (data.map Prod.fst) with
    | error e => simp
    | ok nd =>
      have := detectLoop_total cfg data nd hsta (data.length + 1) 0 (by omega)
      simp [this]
  · intro sr hsr fuel
    have hnd : normalize [(1 : ℚ)] = .ok [1] := by
      norm_num [normalize, maxAbs, qabs, qmax]
    have hbi : (peakLoop [(1 : ℚ)] 1 (0 + 30 * sr / 1000) 0).2 = 0 := by
      have h1 : (1 : ℕ) - 0 = 0 + 1 := by omega
      unfold peakLoop
      rw [h1]
      unfold peakGo
      rw [if_pos ⟨Nat.zero_le _, Nat.zero_lt_one⟩,
        if_pos (by norm_num [List.getD] : (0 : ℚ) < [(1 : ℚ)].getD 0 0)]
      rfl
    have hstuck := detectLoop_stuck ⟨2/10, sr, 30⟩ [((1 : ℚ), (0 : ℚ))] [1] 0 hsr
      (by norm_num) (by norm_num [List.getD]) hbi fuel
    simp [detect_clicks_and_cut, hnd, hstuck]

/-- Witness for C10: at 100 Hz the scan of a one-spike buffer finishes
(and is not `none`), while at 50 Hz the same buffer loops forever (here:
fuel 7 is exhausted with no result). -/
theorem C10_termination_witness :
    detect_clicks_and_cut ⟨2/10, 100, 30⟩ 2 [((1 : ℚ), (0 : ℚ))] ≠ .ok none ∧
    detect_clicks_and_cut ⟨2/10, 50, 30⟩ 7 [((1 : ℚ), (0 : ℚ))] = .ok none :=
  ⟨C10_termination.1 ⟨2/10, 100, 30⟩ [(1, 0)] (by norm_num),
   C10_termination.2 50 (by norm_num) 7⟩

/-! Characterisation of `np.argmax` (first index of the maximum). -/

theorem getD_eq_getElem (l : List ℚ) (n : ℕ) (h : n < l.length) : l.getD n 0 = l[n] := by
  rw [List.getD_eq_getElem?_getD, List.getElem?_eq_getElem h]
  rfl

theorem argmaxAux_all_le (t : List ℚ) : ∀ (i b : ℕ) (v : ℚ),
    (∀ y ∈ t, y ≤ v) → argmaxAux t i b v = b := by
  induction t with
  | nil => intro i b v _; rfl
  | cons q u ih =>
    intro i b v h
    unfold argmaxAux
    rw [if_neg (not_lt.mpr (h q (List.mem_cons_self q u)))]
    exact ih (i + 1) b v (fun y hy => h y (List.mem_cons_of_mem q hy))

theorem argmaxAux_reach (t : List ℚ) : ∀ (q i b : ℕ) (v : ℚ), q < t.length →
    v < t.getD q 0 → (∀ j, j < q → t.getD j 0 < t.getD q 0) →
    (∀ j, j < t.length → t.getD j 0 ≤ t.getD q 0) →
    argmaxAux t i b v = i + q := by
  induction t with
  | nil => intro q i b v hq _ _ _; simp at hq
  | cons z u ih =>
    intro q i b v hq hv hlt hle
    cases q with
    | zero =>
      have hv0 : v < z := by simpa using hv
      have hall : ∀ y ∈ u, y ≤ z := by
        intro y hy
        obtain ⟨n, hn, hgn⟩ := List.mem_iff_getElem.mp hy
        have h1 := hle (n + 1) (by simpa using hn)
        rw [List.getD_cons_succ, getD_eq_getElem u n hn, hgn] at h1
        simpa using h1
      unfold argmaxAux
      rw [if_pos hv0, argmaxAux_all_le u (i + 1) i z hall]
      omega
    | succ q1 =>
      have hq1 : q1 < u.length := by simpa using hq
      have hgq : (z :: u).getD (q1 + 1) 0 = u.getD q1 0 := List.getD_cons_succ
      have hlt2 : ∀ j, j < q1 → u.getD j 0 < u.getD q1 0 := by
        intro j hj
        have h1 := hlt (j + 1) (by omega)
        rw [List.getD_cons_succ, hgq] at h1
        exact h1
      have hle2 : ∀ j, j < u.length → u.getD j 0 ≤ u.getD q1 0 := by
        intro j hj
        have h1 := hle (j + 1) (by simpa using hj)
        rw [List.getD_cons_succ, hgq] at h1
        exact h1
      unfold argmaxAux
      by_cases hvz : v < z
      · have hz2 : z < u.getD q1 0 := by
          have h1 := hlt 0 (by omega)
          rw [List.getD_cons_zero, hgq] at h1
          exact h1
        rw [if_pos hvz, ih q1 (i + 1) i z hq1 hz2 hlt2 hle2]
        omega
      · have hv2 : v < u.getD q1 0 := by
          rw [← hgq]
          exact hv
        rw [if_neg hvz, ih q1 (i + 1) b v hq1 hv2 hlt2 hle2]
        omega

/-- The first-maximum characterisation of `np.argmax`: if `s` is strictly
maximal at `p` (every other index is strictly smaller), then `argmax` is
`p`. -/
theorem argmaxList_eq_of_max (s : List ℚ) (p : ℕ) (hp : p < s.length)
    (h : ∀ m, m < s.length → m ≠ p → s.getD m 0 < s.getD p 0) : argmaxList s = p := by
  cases s with
  | nil => simp at hp
  | cons z u =>
    cases p with
    | zero =>
      have hall : ∀ y ∈ u, y ≤ z := by
        intro y hy
        obtain ⟨n, hn, hgn⟩ := List.mem_iff_getElem.mp hy
        have h1 := h (n + 1) (by simpa using hn) (by omega)
        rw [List.getD_cons_succ, getD_eq_getElem u n hn, hgn, List.getD_cons_zero] at h1
        exact le_of_lt h1
      show argmaxAux u 1 0 z = 0
      rw [argmaxAux_all_le u 1 0 z hall]
    | succ p1 =>
      have hp1 : p1 < u.length := by simpa using hp
      have hz2 : z < u.getD p1 0 := by
        have h1 := h 0 (by omega) (by omega)
        rw [List.getD_cons_zero, List.getD_cons_succ] at h1
        exact h1
      have hlt2 : ∀ j, j < p1 → u.getD j 0 < u.getD p1 0 := by
        intro j hj
        have h1 := h (j + 1) (by omega) (by omega)
        rw [List.getD_cons_succ, List.getD_cons_succ] at h1
        exact h1
      have hle2 : ∀ j, j < u.length → u.getD j 0 ≤ u.getD p1 0 := by
        intro j hj
        by_cases hjp : j = p1
        · subst hjp; exact le_rfl
        · have h1 := h (j + 1) (by simpa using hj) (by omega)
          rw [List.getD_cons_succ, List.getD_cons_succ] at h1
          exact le_of_lt h1
      show argmaxAux u 1 0 z = p1 + 1
      rw [argmaxAux_reach u p1 1 0 z hp1 hz2 hlt2 hle2]
      omega

/-! The one-sided autocorrelation `Dplus` and its strict maximum at shift 0. -/

/-- One-sided autocorrelation of a signal at a nonnegative shift `t`
(out-of-range reads are 0). -/
def Dplus (x : List ℚ) (t : ℕ) : ℚ :=
  ∑ j ∈ Finset.range x.length, x.getD j 0 * x.getD (j + t) 0

theorem Dplus_zero_eq (x : List ℚ) :
    Dplus x 0 = ∑ j ∈ Finset.range x.length, (x.getD j 0) ^ 2 := by
  unfold Dplus
  exact Finset.sum_congr rfl (fun j _ => by rw [Nat.add_zero, sq])

/-- Shifting the squared-sample sum: the shifted sum misses exactly the
first `min t N` squares. -/
theorem sum_sq_shift (x : List ℚ) (t : ℕ) :
    ∑ j ∈ Finset.range x.length, (x.getD (j + t) 0) ^ 2
      + ∑ j ∈ Finset.range (min t x.length), (x.getD j 0) ^ 2
      = ∑ j ∈ Finset.range x.length, (x.getD j 0) ^ 2 := by
  set N := x.length with hN
  have hz : ∀ i, N ≤ i → (x.getD i 0) ^ 2 = 0 := by
    intro i hi
    rw [List.getD_eq_default _ _ hi]
    norm_num
  have h1 : ∑ j ∈ Finset.range N, (x.getD (j + t) 0) ^ 2
      = ∑ i ∈ Finset.Ico t (t + N), (x.getD i 0) ^ 2 := by
    rw [Finset.sum_Ico_eq_sum_range]
    have he : t + N - t = N := by omega
    rw [he]
    exact Finset.sum_congr rfl (fun j _ => by rw [Nat.add_comm t j])
  rw [h1]
  by_cases htN : N ≤ t
  · have hmin : min t N = N := min_eq_right htN
    rw [hmin]
    have h2 : ∑ i ∈ Finset.Ico t (t + N), (x.getD i 0) ^ 2 = 0 :=
      Finset.sum_eq_zero (fun i hi => hz i (by have := (Finset.mem_Ico.mp hi).1; omega))
    rw [h2, zero_add]
  · push_neg at htN
    have hmin : min t N = t := min_eq_left (le_of_lt htN)
    rw [hmin]
    have hsplit : ∑ i ∈ Finset.Ico t N, (x.getD i 0) ^ 2
        + ∑ i ∈ Finset.Ico N (t + N), (x.getD i 0) ^ 2
        = ∑ i ∈ Finset.Ico t (t + N), (x.getD i 0) ^ 2 :=
      Finset.sum_Ico_consecutive _ (by omega) (by omega)
    have hzero : ∑ i ∈ Finset.Ico N (t + N), (x.getD i 0) ^ 2 = 0 :=
      Finset.sum_eq_zero (fun i hi => hz i (Finset.mem_Ico.mp hi).1)
    rw [← hsplit, hzero, add_zero, Finset.range_eq_Ico,
      ← Finset.sum_Ico_consecutive (fun i => (x.getD i 0) ^ 2)
        (Nat.zero_le t) (le_of_lt htN)]
    ring

/-- Strict Cauchy–Schwarz-type bound for the autocorrelation of a nonzero
signal: every nonzero shift correlates strictly below shift 0. -/
theorem Dplus_lt_zero_shift (x : List ℚ) (t : ℕ) (ht : 1 ≤ t)
    (hnz : ∃ n, n < x.length ∧ x.getD n 0 ≠ 0) : Dplus x t < Dplus x 0 := by
  set N := x.length with hN
  have hex : ∃ n, x.getD n 0 ≠ 0 := ⟨hnz.choose, hnz.choose_spec.2⟩
  set i0 := Nat.find hex with hi0def
  have hi0 : x.getD i0 0 ≠ 0 := Nat.find_spec hex
  have hi0min : ∀ m, m < i0 → x.getD m 0 = 0 := by
    intro m hm
    by_contra hcon
    exact Nat.find_min hex hm hcon
  have hi0N : i0 < N := by
    by_contra hcon
    exact hi0 (List.getD_eq_default _ _ (by omega))
  have hsq : 0 < x.getD i0 0 ^ 2 :=
    lt_of_le_of_ne (sq_nonneg _) (Ne.symm (pow_ne_zero 2 hi0))
  have hterm : ∀ j ∈ Finset.range N,
      x.getD j 0 * x.getD (j + t) 0 ≤ ((x.getD j 0) ^ 2 + (x.getD (j + t) 0) ^ 2) / 2 := by
    intro j _
    nlinarith [sq_nonneg (x.getD j 0 - x.getD (j + t) 0)]
  have hshift := sum_sq_shift x t
  have hD0 := Dplus_zero_eq x
  have hHnonneg : 0 ≤ ∑ j ∈ Finset.range (min t N), (x.getD j 0) ^ 2 :=
    Finset.sum_nonneg (fun j _ => sq_nonneg _)
  have hhalf : ∑ j ∈ Finset.range N, ((x.getD j 0) ^ 2 + (x.getD (j + t) 0) ^ 2) / 2
      = (∑ j ∈ Finset.range N, (x.getD j 0) ^ 2
        + ∑ j ∈ Finset.range N, (x.getD (j + t) 0) ^ 2) / 2 := by
    rw [← Finset.sum_add_distrib, Finset.sum_div]
  rcases lt_or_le i0 t with hcase | hcase
  · have hHt : 0 < ∑ j ∈ Finset.range (min t N), (x.getD j 0) ^ 2 := by
      have hmem : i0 ∈ Finset.range (min t N) := Finset.mem_range.mpr (by omega)
      calc (0 : ℚ) < x.getD i0 0 ^ 2 := hsq
        _ ≤ ∑ j ∈ Finset.range (min t N), (x.getD j 0) ^ 2 :=
          @Finset.single_le_sum ℕ ℚ _ (fun j => x.getD j 0 ^ 2)
            (Finset.range (min t N)) (fun j _ => sq_nonneg _) i0 hmem
    have hb : Dplus x t ≤ ∑ j ∈ Finset.range N,
        ((x.getD j 0) ^ 2 + (x.getD (j + t) 0) ^ 2) / 2 :=
      Finset.sum_le_sum hterm
    rw [hhalf] at hb
    rw [hD0]
    linarith
  · have hb : Dplus x t < ∑ j ∈ Finset.range N,
        ((x.getD j 0) ^ 2 + (x.getD (j + t) 0) ^ 2) / 2 := by
      apply Finset.sum_lt_sum hterm
      refine ⟨i0 - t, Finset.mem_range.mpr (by omega), ?_⟩
      have hzj : x.getD (i0 - t) 0 = 0 := hi0min _ (by omega)
      have hidx : (i0 - t) + t = i0 := by omega
      rw [hzj, hidx]
      nlinarith
    rw [hhalf] at hb
    rw [hD0]
    linarith

/-! The correlation of a signal with its zero-padded right shift. -/

theorem getD_replicate_zero (k i : ℕ) : (List.replicate k (0 : ℚ)).getD i 0 = 0 := by
  induction k generalizing i with
  | zero => rfl
  | succ n ih =>
    cases i with
    | zero => rfl
    | succ j =>
      rw [List.replicate_succ, List.getD_cons_succ]
      exact ih j

theorem getD_take (x : List ℚ) (m j : ℕ) (h : j < m) : (x.take m).getD j 0 = x.getD j 0 := by
  by_cases hj : j < x.length
  · have hj2 : j < (x.take m).length := by simp; omega
    rw [getD_eq_getElem _ _ hj2, getD_eq_getElem _ _ hj]
    exact List.getElem_take x
  · push_neg at hj
    rw [List.getD_eq_default _ _ (by simp; omega), List.getD_eq_default _ _ hj]

theorem getQ_natCast (s : List ℚ) (n : ℕ) : getQ s (n : ℤ) = s.getD n 0 := by
  unfold getQ
  rw [if_neg (by omega), Int.toNat_natCast]

/-- Folding the "backward" half of the correlation onto `Dplus`. -/
theorem sum_flip (x : List ℚ) (t : ℕ) :
    ∑ j ∈ Finset.range x.length, (if t ≤ j then x.getD j 0 * x.getD (j - t) 0 else 0)
      = Dplus x t := by
  by_cases htN : x.length ≤ t
  · have h1 : ∑ j ∈ Finset.range x.length,
        (if t ≤ j then x.getD j 0 * x.getD (j - t) 0 else 0) = 0 :=
      Finset.sum_eq_zero (fun j hj => if_neg (by have := Finset.mem_range.mp hj; omega))
    have h2 : Dplus x t = 0 := by
      unfold Dplus
      exact Finset.sum_eq_zero (fun j hj => by
        rw [List.getD_eq_default _ _ (show x.length ≤ j + t by omega), mul_zero])
    rw [h1, h2]
  · push_neg at htN
    have h1 : ∑ j ∈ Finset.range x.length,
        (if t ≤ j then x.getD j 0 * x.getD (j - t) 0 else 0)
        = ∑ j ∈ Finset.Ico t x.length, x.getD j 0 * x.getD (j - t) 0 := by
      rw [Finset.range_eq_Ico,
        ← Finset.sum_Ico_consecutive _ (Nat.zero_le t) (le_of_lt htN)]
      have hz : ∑ j ∈ Finset.Ico 0 t,
          (if t ≤ j then x.getD j 0 * x.getD (j - t) 0 else 0) = 0 :=
        Finset.sum_eq_zero (fun j hj => if_neg (by have := Finset.mem_Ico.mp hj; omega))
      have hk : ∑ j ∈ Finset.Ico t x.length,
          (if t ≤ j then x.getD j 0 * x.getD (j - t) 0 else 0)
          = ∑ j ∈ Finset.Ico t x.length, x.getD j 0 * x.getD (j - t) 0 :=
        Finset.sum_congr rfl (fun j hj => if_pos (Finset.mem_Ico.mp hj).1)
      rw [hz, hk, zero_add]
    have h2 : Dplus x t = ∑ j ∈ Finset.range (x.length - t), x.getD j 0 * x.getD (j + t) 0 := by
      unfold Dplus
      rw [Finset.range_eq_Ico,
        ← Finset.sum_Ico_consecutive _ (Nat.zero_le (x.length - t)) (by omega)]
      have hz2 : ∑ j ∈ Finset.Ico (x.length - t) x.length, x.getD j 0 * x.getD (j + t) 0 = 0 :=
        Finset.sum_eq_zero (fun j hj => by
          rw [List.getD_eq_default _ _
            (show x.length ≤ j + t by have := (Finset.mem_Ico.mp hj).1; omega), mul_zero])
      rw [hz2, add_zero, ← Finset.range_eq_Ico]
    rw [h1, Finset.sum_Ico_eq_sum_range, h2]
    apply Finset.sum_congr rfl
    intro i hi
    have e1 : t + i - t = i := by omega
    rw [e1, Nat.add_comm t i]
    exact mul_comm _ _

/-- The full cross-correlation of `x` against its zero-padded right shift
by `k` (when the shift loses only zeros) is the one-sided autocorrelation
at the distance from the peak position `len - 1 - k`. -/
theorem corrAt_shift (x : List ℚ) (k : ℕ) (hk : k < x.length)
    (htail : ∀ j, x.length - k ≤ j → x.getD j 0 = 0) (m : ℕ) :
    corrAt x (List.replicate k 0 ++ x.take (x.length - k)) m
      = Dplus x (if m ≤ x.length - 1 - k then x.length - 1 - k - m
          else m - (x.length - 1 - k)) := by
  have hylen : (List.replicate k (0 : ℚ) ++ x.take (x.length - k)).length = x.length := by
    simp [List.length_replicate]
    omega
  have hyg : ∀ i : ℕ, (List.replicate k (0 : ℚ) ++ x.take (x.length - k)).getD i 0
      = if k ≤ i then x.getD (i - k) 0 else 0 := by
    intro i
    by_cases hik : i < k
    · rw [if_neg (by omega),
        List.getD_append _ _ _ _ (by rw [List.length_replicate]; exact hik)]
      exact getD_replicate_zero k i
    · push_neg at hik
      rw [if_pos hik,
        List.getD_append_right _ _ _ _ (by rw [List.length_replicate]; exact hik),
        List.length_replicate]
      by_cases h2 : i - k < x.length - k
      · exact getD_take x (x.length - k) (i - k) h2
      · push_neg at h2
        rw [List.getD_eq_default _ _ (by simp; omega)]
        exact (htail (i - k) h2).symm
  unfold corrAt
  rw [hylen]
  by_cases hm : m ≤ x.length - 1 - k
  · rw [if_pos hm]
    unfold Dplus
    apply Finset.sum_congr rfl
    intro j hj
    have hjN : j < x.length := Finset.mem_range.mp hj
    congr 1
    have hz : ((j : ℤ) - (m : ℤ) + (x.length : ℤ) - 1)
        = (((j + (x.length - 1 - k - m) + k : ℕ) : ℤ)) := by omega
    rw [hz, getQ_natCast, hyg, if_pos (by omega)]
    congr 1
    omega
  · push_neg at hm
    rw [if_neg (by omega), ← sum_flip x (m - (x.length - 1 - k))]
    apply Finset.sum_congr rfl
    intro j hj
    have hjN : j < x.length := Finset.mem_range.mp hj
    by_cases hjt : (m - (x.length - 1 - k)) ≤ j
    · rw [if_pos hjt]
      congr 1
      have hz : ((j : ℤ) - (m : ℤ) + (x.length : ℤ) - 1)
          = (((j - (m - (x.length - 1 - k))) + k : ℕ) : ℤ) := by omega
      rw [hz, getQ_natCast, hyg, if_pos (by omega)]
      congr 1
      omega
    · push_neg at hjt
      rw [if_neg (by omega)]
      have hz : ((j : ℤ) - (m : ℤ) + (x.length : ℤ) - 1) < (k : ℤ) := by omega
      unfold getQ
      split
      · exact mul_zero _
      · next hpos =>
        push_neg at hpos
        rw [hyg, if_neg (by omega)]
        exact mul_zero _

theorem correlateFull_length (a b : List ℚ) :
    (correlateFull a b).length = a.length + b.length - 1 := by
  simp [correlateFull]

theorem correlateFull_getD (a b : List ℚ) (m : ℕ) (hm : m < a.length + b.length - 1) :
    (correlateFull a b).getD m 0 = corrAt a b m := by
  have hm2 : m < (correlateFull a b).length := by rw [correlateFull_length]; exact hm
  rw [getD_eq_getElem _ _ hm2]
  simp [correlateFull]

/-- The estimated lag of a nonzero signal against its zero-padded right
shift by `k` (no nonzero samples lost) is `-k`: the correlation peaks at
index `len - 1 - k` and the center index is `len - 1`. -/
theorem find_offset_shift (x : List ℚ) (k : ℕ) (hk : k < x.length)
    (hnz : ∃ n, n < x.length ∧ x.getD n 0 ≠ 0)
    (htail : ∀ j, x.length - k ≤ j → x.getD j 0 = 0) :
    find_offset (correlateFull x (List.replicate k 0 ++ x.take (x.length - k)))
      = -(k : ℤ) := by
  have hylen : (List.replicate k (0 : ℚ) ++ x.take (x.length - k)).length = x.length := by
    simp [List.length_replicate]
    omega
  have hclen : (correlateFull x (List.replicate k 0 ++ x.take (x.length - k))).length
      = x.length + x.length - 1 := by
    rw [correlateFull_length, hylen]
  have hmax : ∀ m, m < x.length + x.length - 1 → m ≠ x.length - 1 - k →
      (correlateFull x (List.replicate k 0 ++ x.take (x.length - k))).getD m 0
        < (correlateFull x (List.replicate k 0 ++ x.take (x.length - k))).getD
            (x.length - 1 - k) 0 := by
    intro m hm hne
    rw [correlateFull_getD _ _ _ (by rw [hylen]; omega),
      correlateFull_getD _ _ _ (by rw [hylen]; omega),
      corrAt_shift x k hk htail m, corrAt_shift x k hk htail (x.length - 1 - k),
      if_pos (le_refl _), Nat.sub_self]
    split
    · next hc => exact Dplus_lt_zero_shift x _ (by omega) hnz
    · next hc => exact Dplus_lt_zero_shift x _ (by omega) hnz
  have hargmax : argmaxList (correlateFull x (List.replicate k 0 ++ x.take (x.length - k)))
      = x.length - 1 - k :=
    argmaxList_eq_of_max _ _ (by rw [hclen]; omega)
      (fun m hm hne => hmax m (by rw [hclen] at hm; exact hm) hne)
  unfold find_offset
  rw [hargmax, hclen]
  have h2 : (x.length + x.length - 1) / 2 = x.length - 1 := by omega
  rw [h2]
  omega

/-- Translating the "trailing samples are zero" membership form into the
indexed form. -/
theorem tail_getD_zero (a : List ℚ) (k : ℕ)
    (htail : ∀ e ∈ a.drop (a.length - k), e = 0) :
    ∀ j, a.length - k ≤ j → a.getD j 0 = 0 := by
  intro j hj
  by_cases hjN : j < a.length
  · have hj2 : j - (a.length - k) < (a.drop (a.length - k)).length := by simp; omega
    have h3 : (a.drop (a.length - k)).getD (j - (a.length - k)) 0 = a.getD j 0 := by
      rw [getD_eq_getElem _ _ hj2, getD_eq_getElem _ _ hjN, List.getElem_drop]
      congr 1
      omega
    have hmem : (a.drop (a.length - k)).getD (j - (a.length - k)) 0 ∈ a.drop (a.length - k) := by
      rw [getD_eq_getElem _ _ hj2]
      exact List.getElem_mem _
    rw [← h3]
    exact htail _ hmem
  · exact List.getD_eq_default _ _ (by omega)

/-- The Offset Estimator on a nonzero signal `a` and its zero-padded right
shift by `k` samples (the shift discarding only zeros) returns `-k`: the
code's sign convention is the negation of the shift. -/
theorem offsetEstimator_shift (a : List ℚ) (k : ℕ) (hk : k < a.length)
    (hnz : ∃ e ∈ a, e ≠ 0) (htail : ∀ e ∈ a.drop (a.length - k), e = 0) :
    offsetEstimator a (List.replicate k 0 ++ a.take (a.length - k)) = .ok (-(k : ℤ)) := by
  have ha_ne : a ≠ [] := by
    intro h
    rw [h] at hk
    simp at hk
  have hM : maxAbs a ≠ 0 := by
    rw [Ne, maxAbs_eq_zero_iff]
    intro hall
    obtain ⟨e, he, hne⟩ := hnz
    exact hne (hall e he)
  have hMpos : 0 < maxAbs a := maxAbs_pos a hM
  have htailD := tail_getD_zero a k htail
  have hblen : (List.replicate k (0 : ℚ) ++ a.take (a.length - k)).length = a.length := by
    simp [List.length_replicate]
    omega
  have hb_ne : (List.replicate k (0 : ℚ) ++ a.take (a.length - k)) ≠ [] := by
    intro h
    rw [h] at hblen
    simp at hblen
    omega
  have hbM : maxAbs (List.replicate k 0 ++ a.take (a.length - k)) = maxAbs a := by
    rw [maxAbs_append, maxAbs_replicate_zero, max_eq_right (maxAbs_nonneg _)]
    conv_rhs => rw [← List.take_append_drop (a.length - k) a]
    rw [maxAbs_append, (maxAbs_eq_zero_iff _).mpr htail, max_eq_left (maxAbs_nonneg _)]
  have hna : normalize a = .ok (a.map (fun z => z / maxAbs a)) := by
    rw [normalize_of_ne_nil a ha_ne, if_neg hM]
  have hnb : normalize (List.replicate k 0 ++ a.take (a.length - k))
      = .ok ((List.replicate k 0 ++ a.take (a.length - k)).map (fun z => z / maxAbs a)) := by
    rw [normalize_of_ne_nil _ hb_ne, hbM, if_neg hM]
  have hmap : (List.replicate k (0 : ℚ) ++ a.take (a.length - k)).map (fun z => z / maxAbs a)
      = List.replicate k 0 ++ ((a.map (fun z => z / maxAbs a)).take (a.length - k)) := by
    rw [List.map_append, List.map_take]
    congr 1
    simp [List.map_replicate]
  have hok : offsetEstimator a (List.replicate k 0 ++ a.take (a.length - k))
      = .ok (find_offset (correlateFull (a.map (fun z => z / maxAbs a))
          ((List.replicate k 0 ++ a.take (a.length - k)).map (fun z => z / maxAbs a)))) := by
    unfold offsetEstimator
    rw [hna, hnb]
    rfl
  rw [hok, hmap]
  have hlen : (a.map (fun z => z / maxAbs a)).length = a.length := by simp
  have hnz2 : ∃ n, n < (a.map (fun z => z / maxAbs a)).length
      ∧ (a.map (fun z => z / maxAbs a)).getD n 0 ≠ 0 := by
    obtain ⟨e, he, hne⟩ := hnz
    obtain ⟨n, hn, hgn⟩ := List.mem_iff_getElem.mp he
    refine ⟨n, by simpa using hn, ?_⟩
    rw [getD_eq_getElem _ _ (by simpa using hn)]
    simp only [List.getElem_map, hgn]
    exact div_ne_zero hne hM
  have htail2 : ∀ j, (a.map (fun z => z / maxAbs a)).length - k ≤ j →
      (a.map (fun z => z / maxAbs a)).getD j 0 = 0 := by
    intro j hj
    rw [hlen] at hj
    by_cases hjN : j < a.length
    · rw [getD_eq_getElem _ _ (by simpa using hjN)]
      simp only [List.getElem_map]
      rw [← getD_eq_getElem a j hjN, htailD j hj, zero_div]
    · exact List.getD_eq_default _ _ (by simpa using hjN)
  have := find_offset_shift (a.map (fun z => z / maxAbs a)) k (by omega) hnz2 htail2
  rw [hlen] at this
  rw [this]

/-- Counterexample to claim C1: for `a = [1, 0]` and `b = [0, 1]` (its
right shift by `k = 1`), the Offset Estimator returns `-1`, not the claimed
`k = 1`: the code's sign convention is the negation of the shift. -/
theorem C1_cex : offsetEstimator [1, 0] [0, 1] = .ok (-1) ∧ ((-1 : ℤ) ≠ 1) := by
  constructor
  · norm_num [offsetEstimator, normalize, maxAbs, qabs, qmax, correlateFull, corrAt, getQ,
      find_offset, argmaxList, argmaxAux, List.range_succ, Finset.sum_range_succ, Except.bind,
      bind, List.getD, Option.getD, Int.toNat, pure, Except.pure, List.getElem?_cons_succ,
      List.getElem?_cons_zero, List.getElem?_nil]
  · norm_num

/-- Claim C1 as amended: for a not-identically-zero signal `a` whose last
`k` samples are zero (so the zero-padded right shift `b` loses no signal
content), the Offset Estimator on `(a, b)` returns lag `-k` — the negation
of the claimed `k` — and re-running the estimator on the stereo pair
produced by the Realigner with that lag returns lag 0 (round-trip law). -/
theorem C1_amended (a : List ℚ) (k : ℕ) (hk : k < a.length)
    (hnz : ∃ e ∈ a, e ≠ 0) (htail : ∀ e ∈ a.drop (a.length - k), e = 0) :
    offsetEstimator a (List.replicate k 0 ++ a.take (a.length - k)) = .ok (-(k : ℤ)) ∧
    analyze_offsets (modify_data
      (a.zip (List.replicate k 0 ++ a.take (a.length - k))) (-(k : ℤ))) = .ok 0 := by
  have htailD := tail_getD_zero a k htail
  have hblen : (List.replicate k (0 : ℚ) ++ a.take (a.length - k)).length = a.length := by
    simp [List.length_replicate]
    omega
  constructor
  · exact offsetEstimator_shift a k hk hnz htail
  · have hmd : modify_data (a.zip (List.replicate k 0 ++ a.take (a.length - k))) (-(k : ℤ))
        = (a.take (a.length - k)).zip (a.take (a.length - k)) := by
      by_cases hk0 : k = 0
      · subst hk0
        simp [modify_data]
      · have hkpos : 0 < k := Nat.pos_of_ne_zero hk0
        unfold modify_data
        rw [if_neg (by omega), if_pos (by omega)]
        have hnat : (-(k : ℤ)).natAbs = k := by simp
        have hzip : (a.zip (List.replicate k 0 ++ a.take (a.length - k))).length
            = a.length := by
          simp [hblen]
        rw [hnat, hzip, List.map_fst_zip _ _ (by rw [hblen]),
          List.map_snd_zip _ _ (by rw [hblen])]
        congr 1
        exact List.drop_left' (by simp)
    rw [hmd]
    unfold analyze_offsets
    rw [List.map_fst_zip _ _ le_rfl, List.map_snd_zip _ _ le_rfl]
    have hxnz : ∃ e ∈ a.take (a.length - k), e ≠ 0 := by
      obtain ⟨e, he, hne⟩ := hnz
      obtain ⟨n, hn, hgn⟩ := List.mem_iff_getElem.mp he
      have hnk : n < a.length - k := by
        by_contra hcon
        push_neg at hcon
        rw [← getD_eq_getElem a n hn, htailD n hcon] at hgn
        exact hne hgn.symm
      refine ⟨e, ?_, hne⟩
      have hn2 : n < (a.take (a.length - k)).length := by simp; omega
      have hval : (a.take (a.length - k)).getD n 0 = e := by
        rw [getD_eq_getElem _ _ hn2, List.getElem_take, hgn]
      rw [← hval, getD_eq_getElem _ _ hn2]
      exact List.getElem_mem _
    have hmain := offsetEstimator_shift (a.take (a.length - k)) 0
      (by simp; omega) hxnz
      (by
        intro e he
        rw [Nat.sub_zero, List.drop_length] at he
        simp at he)
    simpa [List.take_take, min_self] using hmain

/-- Witness for C1 as amended at `a = [2, 3, 0]`, `k = 1` (the trailing
sample is zero, so the shift `b = [0, 2, 3]` loses nothing): the estimator
returns `-1`, and after realignment with lag `-1` it returns `0`. -/
theorem C1_amended_witness :
    offsetEstimator [(2 : ℚ), 3, 0] [0, 2, 3] = .ok (-1) ∧
    analyze_offsets (modify_data ([(2 : ℚ), 3, 0].zip [(0 : ℚ), 2, 3]) (-1)) = .ok 0 :=
  C1_amended [2, 3, 0] 1 (by norm_num) (by norm_num) (by norm_num)

end PostSync
